import Mathlib

/-!
A verification model of `src/regex_utils.py`.

The repository wraps the google-re2 Python module (`re2`) with a
`try/except` fallback to Python's `re` module, and exposes six pyspark
column operations: `split`, `regexp_replace`, `regexp_extract`, `rlike`,
`startswith`, `endswith`.  This file gives a shallow embedding of

  * the regex dialect shared by the two engines (literals, classes,
    anchors, greedy quantifiers, alternation, capture groups, escapes),
    with the two engine-specific differences that matter here:
    the re2 engine rejects backreferences (`\1`) at compile time while
    the Python engine accepts them, and `$` in the Python engine also
    matches just before a trailing newline;
  * the backtracking leftmost-first match semantics both engines present
    for the shared dialect (re2's Python binding uses PCRE-style
    leftmost-first semantics, not leftmost-longest);
  * the module-level functions of the `re2`/`re` modules the repository
    calls: `search`, `split` (with `maxsplit`), `sub` (with template
    expansion of the replacement), `escape`, and `Match.group(idx)`;
  * the column layer of `regex_utils.py` itself: the `try` block that
    builds a closure and a UDF wrapper (and therefore cannot raise), the
    dead `except` fallback branch, and the module-level monkey-patching
    of `pyspark.sql.functions` / `Column` performed at import time.

Modelling notes (deliberate simplifications, none touching the claims):
bounded quantifiers `{m,n}`, lazy quantifiers `*?`, lookaround, named
groups and word-boundary escapes are not modelled (their patterns are
rejected by the model parser); `\w`, `\d`, `\s` are ASCII; `escape`
escapes every non-word character (both real `escape` variants escape at
least the metacharacters, and the parsed literal regex is the same).
The star loop carries an explicit iteration budget of
`length + 1 - pos`; since every accepted iteration strictly advances
the position, that budget is exact and never exhausted.
-/

namespace RegexUtils

/-- Which engine's dialect is being parsed/matched: google-re2 (`re2M`)
or Python's `re` (`pyM`). -/
inductive Mode
  | re2M
  | pyM
deriving DecidableEq

/-- One item of a character class `[...]`. -/
inductive ClsItem
  | ch (c : Char)
  | crange (a b : Char)
  | dCls
  | wCls
  | sCls
  | nDCls
  | nWCls
  | nSCls
deriving DecidableEq

/-- Regex abstract syntax produced by the pattern parser. -/
inductive Regex
  | eps
  | lit (c : Char)
  | anyc
  | cls (neg : Bool) (items : List ClsItem)
  | caret
  | dollar
  | seq (r1 r2 : Regex)
  | alt (r1 r2 : Regex)
  | star (r : Regex)
  | group (idx : Nat) (r : Regex)
  | bref (n : Nat)
deriving DecidableEq

/-- Capture-group slots: entry `i` is the span of group `i + 1`,
`none` when that group has not participated in the match. -/
abbrev Groups := List (Option (Nat × Nat))

/-- ASCII word character, as used by `\w` and `re.escape`. -/
def isWordChar (c : Char) : Bool := c.isAlphanum || c = '_'

/-- ASCII whitespace, as used by `\s`. -/
def isSpaceChar (c : Char) : Bool :=
  c = ' ' || c = '\t' || c = '\n' || c = '\r' || c = '\x0b' || c = '\x0c'

/-- Does character `c` satisfy one class item? -/
def clsItemMatch (c : Char) : ClsItem → Bool
  | .ch a => c = a
  | .crange a b => decide (a ≤ c) && decide (c ≤ b)
  | .dCls => c.isDigit
  | .wCls => isWordChar c
  | .sCls => isSpaceChar c
  | .nDCls => !c.isDigit
  | .nWCls => !isWordChar c
  | .nSCls => !isSpaceChar c

/-- Greedy iteration of a star body.  `body pos g` returns the candidate
continuations of one body match in priority order; iterations must
strictly advance the position (this is how a backtracking engine avoids
looping on a body that matched the empty string), and positions never
leave the input, so a budget of `slen + 1 - pos` iterations is exact. -/
def starIter (slen : Nat) (body : Nat → Groups → List (Nat × Groups)) :
    Nat → Nat → Groups → List (Nat × Groups)
  | 0, pos, g => [(pos, g)]
  | k + 1, pos, g =>
      ((body pos g).filter (fun pg => decide (pos < pg.1) && decide (pg.1 ≤ slen))).flatMap
        (fun pg => starIter slen body k pg.1 pg.2) ++ [(pos, g)]

/-- All ways `r` can match `s` starting at `pos` with capture state `g`,
as `(end position, captures)` pairs in backtracking priority order
(leftmost-first: first alternative first, greedy quantifiers longest
first).  The head of the list is the match the engine reports. -/
def mAll (M : Mode) (s : List Char) : Regex → Nat → Groups → List (Nat × Groups)
  | .eps, pos, g => [(pos, g)]
  | .lit c, pos, g =>
      if h : pos < s.length then (if s[pos] = c then [(pos + 1, g)] else []) else []
  | .anyc, pos, g =>
      if h : pos < s.length then (if s[pos] = '\n' then [] else [(pos + 1, g)]) else []
  | .cls neg items, pos, g =>
      if h : pos < s.length then
        (if (items.any fun it => clsItemMatch s[pos] it) ≠ neg then [(pos + 1, g)] else [])
      else []
  | .caret, pos, g => if pos = 0 then [(pos, g)] else []
  | .dollar, pos, g =>
      if pos = s.length ∨ (M = .pyM ∧ pos + 1 = s.length ∧ s.getD pos ' ' = '\n') then
        [(pos, g)]
      else []
  | .seq r1 r2, pos, g => (mAll M s r1 pos g).flatMap fun pg => mAll M s r2 pg.1 pg.2
  | .alt r1 r2, pos, g => mAll M s r1 pos g ++ mAll M s r2 pos g
  | .star r, pos, g =>
      starIter s.length (fun p gg => mAll M s r p gg) (s.length + 1 - pos) pos g
  | .group i r, pos, g =>
      (mAll M s r pos g).map fun pg => (pg.1, pg.2.set (i - 1) (some (pos, pg.1)))
  | .bref n, pos, g =>
      match g.getD (n - 1) none with
      | none => []
      | some (a, b) =>
          let w := (s.drop a).take (b - a)
          if pos + w.length ≤ s.length ∧ (s.drop pos).take w.length = w then
            [(pos + w.length, g)]
          else []

/-- The match object reported by the engine: full span plus captures. -/
structure MatchRes where
  ms : Nat
  me : Nat
  groups : Groups
deriving DecidableEq

/-- The engine's anchored match attempt at one position. -/
def matchAt (M : Mode) (re : Regex) (ng : Nat) (s : List Char) (pos : Nat) :
    Option MatchRes :=
  (mAll M s re pos (List.replicate ng none)).head?.map fun pg => ⟨pos, pg.1, pg.2⟩

/-- Unanchored search scanning left to right; `k` counts the remaining
candidate start positions. -/
def searchFromAux (M : Mode) (re : Regex) (ng : Nat) (s : List Char) :
    Nat → Nat → Option MatchRes
  | 0, _ => none
  | k + 1, pos =>
      if pos > s.length then none
      else
        match matchAt M re ng s pos with
        | some m => some m
        | none => searchFromAux M re ng s k (pos + 1)

/-- Leftmost match of `re` in `s` at or after `pos` (the `search` of both
engines). -/
def searchFrom (M : Mode) (re : Regex) (ng : Nat) (s : List Char) (pos : Nat) :
    Option MatchRes :=
  searchFromAux M re ng s (s.length + 1 - pos) pos

/-- Scan position after a reported match, as used by `finditer`: the end
of the match, bumped by one when the match was empty so the scan always
advances. -/
def nextScan (mr : MatchRes) : Nat := if mr.ms = mr.me then mr.me + 1 else mr.me

/-- The `finditer` loop with an explicit step budget; `none` models a
scan loop that failed to terminate within the budget (shown impossible
for the budget `finditer` passes). -/
def finditerAux (M : Mode) (re : Regex) (ng : Nat) (s : List Char) :
    Nat → Nat → Option (List MatchRes)
  | 0, _ => none
  | k + 1, pos =>
      match searchFrom M re ng s pos with
      | none => some []
      | some mr => (finditerAux M re ng s k (nextScan mr)).map fun l => mr :: l

/-- All non-overlapping matches of `re` in `s`, left to right. -/
def finditer (M : Mode) (re : Regex) (ng : Nat) (s : List Char) :
    Option (List MatchRes) :=
  finditerAux M re ng s (s.length + 2) 0

/-! ### Pattern parser (shared dialect of `re2` and `re`) -/

/-- Pattern compilation errors.  `unsupported` covers constructs one
engine rejects (for re2: backreferences); it is raised by the engine as
an ordinary compile error (`re2.error`). -/
inductive ReErr
  | badEscape
  | unsupported
  | unbalanced
  | badRepeat
  | badClass
  | fuelOut
deriving DecidableEq

/-- Meaning of an escape `\c` inside a character class. -/
def clsEsc (c : Char) : Except ReErr ClsItem :=
  if c = 'd' then .ok .dCls
  else if c = 'D' then .ok .nDCls
  else if c = 'w' then .ok .wCls
  else if c = 'W' then .ok .nWCls
  else if c = 's' then .ok .sCls
  else if c = 'S' then .ok .nSCls
  else if c = 'n' then .ok (.ch '\n')
  else if c = 't' then .ok (.ch '\t')
  else if c = 'r' then .ok (.ch '\r')
  else if c = 'f' then .ok (.ch '\x0c')
  else if c = 'v' then .ok (.ch '\x0b')
  else if c = 'a' then .ok (.ch '\x07')
  else if c.isAlphanum then .error .badEscape
  else .ok (.ch c)

/-- Items of a character class body, up to the closing `]`. -/
def parseClsItems : List Char → Except ReErr (List ClsItem × List Char)
  | [] => .error .badClass
  | ']' :: rest => .ok ([], rest)
  | '\\' :: [] => .error .badEscape
  | '\\' :: c :: rest =>
      match clsEsc c with
      | .ok it => (parseClsItems rest).map fun p => (it :: p.1, p.2)
      | .error e => .error e
  | c :: '-' :: d :: rest =>
      if d = ']' then (parseClsItems ('-' :: d :: rest)).map fun p => (.ch c :: p.1, p.2)
      else if c ≤ d then (parseClsItems rest).map fun p => (.crange c d :: p.1, p.2)
      else .error .badClass
  | c :: rest => (parseClsItems rest).map fun p => (.ch c :: p.1, p.2)

/-- Class body including a leading `]` literal, as both engines allow. -/
def parseClsBody : List Char → Except ReErr (List ClsItem × List Char)
  | ']' :: rest => (parseClsItems rest).map fun p => (ClsItem.ch ']' :: p.1, p.2)
  | cs => parseClsItems cs

/-- A whole class after the opening `[`, handling negation. -/
def parseClsStart : List Char → Except ReErr (Bool × List ClsItem × List Char)
  | '^' :: rest => (parseClsBody rest).map fun p => (true, p.1, p.2)
  | cs => (parseClsBody cs).map fun p => (false, p.1, p.2)

/-- Meaning of a top-level escape `\c`.  The one dialect difference the
repository's claims depend on is here: a backreference `\1`..`\9` parses
in Python mode but is an `unsupported` compile error for re2. -/
def escAtom (M : Mode) (c : Char) : Except ReErr Regex :=
  if isWordChar c then
    if c.isDigit then
      if c = '0' then .ok (.lit (Char.ofNat 0))
      else
        match M with
        | .pyM => .ok (.bref (c.toNat - 48))
        | .re2M => .error .unsupported
    else if c = 'd' then .ok (.cls false [.dCls])
    else if c = 'D' then .ok (.cls false [.nDCls])
    else if c = 'w' then .ok (.cls false [.wCls])
    else if c = 'W' then .ok (.cls false [.nWCls])
    else if c = 's' then .ok (.cls false [.sCls])
    else if c = 'S' then .ok (.cls false [.nSCls])
    else if c = 'n' then .ok (.lit '\n')
    else if c = 't' then .ok (.lit '\t')
    else if c = 'r' then .ok (.lit '\r')
    else if c = 'f' then .ok (.lit '\x0c')
    else if c = 'v' then .ok (.lit '\x0b')
    else if c = 'a' then .ok (.lit '\x07')
    else if c = '_' then .ok (.lit '_')
    else .error .badEscape
  else .ok (.lit c)

/-- Postfix quantifier application after an atom. -/
def applyQuant (r : Regex) (cs : List Char) : Regex × List Char :=
  match cs with
  | [] => (r, [])
  | c :: rest =>
      if c = '*' then (.star r, rest)
      else if c = '+' then (.seq r (.star r), rest)
      else if c = '?' then (.alt r .eps, rest)
      else (r, c :: rest)

/-- Which nonterminal `parseF` is currently parsing. -/
inductive PK
  | palt
  | pseq
  | patom
deriving DecidableEq

/-- Recursive-descent pattern parser (alternation / sequence / atom),
threading the next capture-group number.  The fuel argument strictly
exceeds the recursion depth for the fuel `reParse` supplies. -/
def parseF (M : Mode) : Nat → PK → List Char → Nat → Except ReErr (Regex × List Char × Nat)
  | 0, _, _, _ => .error .fuelOut
  | k + 1, .pseq, cs, g =>
      if cs.head? = none ∨ cs.head? = some '|' ∨ cs.head? = some ')' then .ok (.eps, cs, g)
      else
        match parseF M k .patom cs g with
        | .error e => .error e
        | .ok (r, cs1, g1) =>
            match applyQuant r cs1 with
            | (r2, cs2) =>
                match parseF M k .pseq cs2 g1 with
                | .error e => .error e
                | .ok (rs, cs3, g3) => .ok (.seq r2 rs, cs3, g3)
  | k + 1, .palt, cs, g =>
      match parseF M k .pseq cs g with
      | .error e => .error e
      | .ok (r1, '|' :: rest, g1) =>
          match parseF M k .palt rest g1 with
          | .error e => .error e
          | .ok (r2, cs2, g2) => .ok (.alt r1 r2, cs2, g2)
      | .ok (r1, cs1, g1) => .ok (r1, cs1, g1)
  | k + 1, .patom, cs, g =>
      match cs with
      | [] => .error .badRepeat
      | c :: rest =>
          if c = '(' then
            match rest with
            | '?' :: ':' :: rest2 =>
                match parseF M k .palt rest2 g with
                | .ok (r, ')' :: rest3, g1) => .ok (r, rest3, g1)
                | .ok _ => .error .unbalanced
                | .error e => .error e
            | '?' :: _ => .error .unsupported
            | _ =>
                match parseF M k .palt rest (g + 1) with
                | .ok (r, ')' :: rest3, g1) => .ok (.group g r, rest3, g1)
                | .ok _ => .error .unbalanced
                | .error e => .error e
          else if c = '[' then
            match parseClsStart rest with
            | .ok (neg, items, rest2) => .ok (.cls neg items, rest2, g)
            | .error e => .error e
          else if c = '\\' then
            match rest with
            | [] => .error .badEscape
            | e :: rest2 => (escAtom M e).map fun r => (r, rest2, g)
          else if c = '.' then .ok (.anyc, rest, g)
          else if c = '^' then .ok (.caret, rest, g)
          else if c = '$' then .ok (.dollar, rest, g)
          else if c = '*' ∨ c = '+' ∨ c = '?' then .error .badRepeat
          else .ok (.lit c, rest, g)

/-- Compile a pattern: parse it completely, returning the syntax tree and
the number of declared capture groups. -/
def reParse (M : Mode) (pat : List Char) : Except ReErr (Regex × Nat) :=
  match parseF M (2 * pat.length + 8) .palt pat 1 with
  | .ok (r, [], g) => .ok (r, g - 1)
  | .ok (_, _ :: _, _) => .error .unbalanced
  | .error e => .error e

/-! ### Row-level semantics of the engine calls made by `regex_utils.py` -/

/-- Errors a row function can raise inside the UDF (surfaced by the
columnar runtime as a user-visible failure of the action). -/
inductive PyErr
  | compileError
  | indexError
  | templateError
  | nonTermination
deriving DecidableEq

/-- An element of the array produced by `re2.split` / `re.split`: a
substring or a `None` from a non-participating capture group. -/
inductive Cell
  | cs (s : String)
  | cnull
deriving DecidableEq

/-- Values produced by the modelled row functions. -/
inductive PyVal
  | vstr (s : String)
  | vbool (b : Bool)
  | vnull
  | varr (xs : List Cell)
deriving DecidableEq

/-- Equality of engine results is decidable, so concrete evaluations of
the model can be checked by `decide`. -/
instance exceptDecEq {ε α : Type} [DecidableEq ε] [DecidableEq α] :
    DecidableEq (Except ε α) := fun a b =>
  match a, b with
  | .error e1, .error e2 =>
      if h : e1 = e2 then .isTrue (by rw [h])
      else .isFalse (by intro hc; injection hc with h2; exact h h2)
  | .error _, .ok _ => .isFalse (by intro hc; exact Except.noConfusion hc)
  | .ok _, .error _ => .isFalse (by intro hc; exact Except.noConfusion hc)
  | .ok a1, .ok a2 =>
      if h : a1 = a2 then .isTrue (by rw [h])
      else .isFalse (by intro hc; injection hc with h2; exact h h2)

/-- The substring `s[a:b]`. -/
def sliceL (s : List Char) (a b : Nat) : List Char := (s.drop a).take (b - a)

/-- Compile-then-search, the core of `re2.search` / `re.search`. -/
def pySearch (M : Mode) (pat text : List Char) : Except PyErr (Option MatchRes) :=
  match reParse M pat with
  | .error _ => .error .compileError
  | .ok (re, ng) => .ok (searchFrom M re ng text 0)

/-- The `Match.group(idx)` call of `regexp_extract`: the whole match for
`idx = 0`, the group's text (or `None`) for a declared group, and an
`IndexError` for any other `idx`. -/
def matchGroup (s : List Char) (ng : Nat) (mr : MatchRes) (idx : Int) : Except PyErr PyVal :=
  if idx = 0 then .ok (.vstr (String.mk (sliceL s mr.ms mr.me)))
  else if 1 ≤ idx ∧ idx ≤ (ng : Int) then
    match mr.groups.getD (idx.toNat - 1) none with
    | some (a, b) => .ok (.vstr (String.mk (sliceL s a b)))
    | none => .ok .vnull
  else .error .indexError

/-- The row function of `regexp_extract`: `get_group` in the source. -/
def pyExtractRow (M : Mode) (pat : List Char) (idx : Int) (text : List Char) :
    Except PyErr PyVal :=
  match reParse M pat with
  | .error _ => .error .compileError
  | .ok (re, ng) =>
      match searchFrom M re ng text 0 with
      | none => .ok (.vstr "")
      | some mr => matchGroup text ng mr idx

/-- `Match.groups()` as spliced into the split result by both engines'
`split`: one entry per declared group, `None` when it did not match. -/
def groupCells (s : List Char) (mr : MatchRes) : List Cell :=
  mr.groups.map fun og =>
    match og with
    | some (a, b) => .cs (String.mk (sliceL s a b))
    | none => .cnull

/-- The pieces of a split: the text before each delimiter match, the
matched groups of the delimiter, and finally the remaining text. -/
def splitPieces (s : List Char) : List MatchRes → Nat → List Cell
  | [], e => [.cs (String.mk (s.drop e))]
  | mr :: rest, e =>
      .cs (String.mk (sliceL s e mr.ms)) :: (groupCells s mr ++ splitPieces s rest mr.me)

/-- The row function of `split`: `re2.split(pattern, text, maxsplit)` /
`re.split` (a `maxsplit` of 0 means unlimited; `maxsplit` bounds the
number of delimiter matches applied, not the array length). -/
def pySplitRow (M : Mode) (pat : List Char) (maxsplit : Nat) (text : List Char) :
    Except PyErr PyVal :=
  match reParse M pat with
  | .error _ => .error .compileError
  | .ok (re, ng) =>
      match finditer M re ng text with
      | none => .error .nonTermination
      | some ms =>
          let ms2 := if maxsplit = 0 then ms else ms.take maxsplit
          .ok (.varr (splitPieces text ms2 0))

/-- Replacement-template expansion performed by `re.sub` / `re2.sub`,
scanned one character at a time (`esc` records a pending backslash):
`\N` inserts the text of group `N` (empty when the group did not
participate), `\\` a backslash; a reference beyond the declared groups
is an error, as is a trailing backslash.  `\g<...>` and unknown letter
escapes are modelled as template errors. -/
def expandT (s : List Char) (ng : Nat) (gs : Groups) : Bool → List Char → Except PyErr (List Char)
  | false, [] => .ok []
  | false, c :: rest =>
      if c = '\\' then expandT s ng gs true rest
      else (expandT s ng gs false rest).map fun t => c :: t
  | true, [] => .error .templateError
  | true, d :: rest =>
      if d.isDigit ∧ d ≠ '0' then
        let n := d.toNat - 48
        if n ≤ ng then
          let piece :=
            match gs.getD (n - 1) none with
            | some (a, b) => sliceL s a b
            | none => []
          (expandT s ng gs false rest).map fun t => piece ++ t
        else .error .templateError
      else if d = '\\' then (expandT s ng gs false rest).map fun t => '\\' :: t
      else if d = 'n' then (expandT s ng gs false rest).map fun t => '\n' :: t
      else if d = 't' then (expandT s ng gs false rest).map fun t => '\t' :: t
      else if d = 'r' then (expandT s ng gs false rest).map fun t => '\r' :: t
      else if d = '0' then (expandT s ng gs false rest).map fun t => Char.ofNat 0 :: t
      else if d.isAlpha then .error .templateError
      else (expandT s ng gs false rest).map fun t => d :: t

/-- Interleave the unreplaced text with the expanded replacement for
every match, as `sub` does. -/
def subBuild (s : List Char) (ng : Nat) (repl : List Char) :
    List MatchRes → Nat → Except PyErr (List Char)
  | [], e => .ok (s.drop e)
  | mr :: rest, e =>
      match expandT s ng mr.groups false repl with
      | .error er => .error er
      | .ok x =>
          match subBuild s ng repl rest mr.me with
          | .error er => .error er
          | .ok t => .ok (sliceL s e mr.ms ++ x ++ t)

/-- The replacement result claimed by the specification: every match
span replaced by the replacement text itself inserted literally, with
the unmatched segments kept, concatenated in original order. -/
def literalSubSpec (s r : List Char) : List MatchRes → Nat → List Char
  | [], e => s.drop e
  | mr :: rest, e => sliceL s e mr.ms ++ r ++ literalSubSpec s r rest mr.me

/-- The row function of `regexp_replace`: `re2.sub` / `re.sub` with an
unlimited count. -/
def pySubRow (M : Mode) (pat repl text : List Char) : Except PyErr PyVal :=
  match reParse M pat with
  | .error _ => .error .compileError
  | .ok (re, ng) =>
      match finditer M re ng text with
      | none => .error .nonTermination
      | some ms => (subBuild text ng repl ms 0).map fun t => .vstr (String.mk t)

/-- Escape of one character by `re.escape` / `re2.escape`: word
characters stand for themselves, everything else is backslash-escaped. -/
def escapeChar (c : Char) : List Char := if isWordChar c then [c] else ['\\', c]

/-- The escaped literal pattern for a string. -/
def escList (l : List Char) : List Char := l.flatMap escapeChar

/-- The row function of `startswith`: search for `"^" + escape(other)`. -/
def pyStartsRow (M : Mode) (other text : List Char) : Except PyErr PyVal :=
  (pySearch M ('^' :: escList other) text).map fun o => .vbool o.isSome

/-- The row function of `endswith`: search for `escape(other) + "$"`. -/
def pyEndsRow (M : Mode) (other text : List Char) : Except PyErr PyVal :=
  (pySearch M (escList other ++ ['$']) text).map fun o => .vbool o.isSome

/-! ### The column layer of `regex_utils.py` -/

/-- Which engine's row function a returned column wraps. -/
inductive EngineTag
  | re2Engine
  | pyreEngine
deriving DecidableEq

/-- A pyspark column as produced by the module's functions: the row
function every element of the column is mapped through (the `other`
argument of the binary operations is already baked in, as the source's
`F.struct` with a literal does). -/
structure ColumnModel where
  engine : EngineTag
  run : String → Except PyErr PyVal

/-- Python's `try: body except: handler` around the column construction:
the handler runs only if the body raised. -/
def pyTry (body : Except PyErr ColumnModel) (handler : Unit → ColumnModel) : ColumnModel :=
  match body with
  | .ok c => c
  | .error _ => handler ()

/-- `functools.partial(...)` in the source: builds a closure storing the
pattern; it never invokes the wrapped engine function, so it cannot
raise a pattern error. -/
def mkClosure (f : String → Except PyErr PyVal) :
    Except PyErr (String → Except PyErr PyVal) :=
  .ok f

/-- `F.udf(f, returnType)(col)` in the source: wraps the row function
into a column without invoking it; no pattern error can occur here. -/
def udfApply (tag : EngineTag) (f : Except PyErr (String → Except PyErr PyVal)) :
    Except PyErr ColumnModel :=
  f.map fun g => ⟨tag, g⟩

/-- `split` of `regex_utils.py` (lines 24-56): clamps `limit` to `0` for
non-positive values, then passes it to the engine as `maxsplit`. -/
def split (pattern : String) (limit : Int) : ColumnModel :=
  let maxsplit : Nat := if limit ≤ 0 then 0 else limit.toNat
  pyTry
    (udfApply .re2Engine (mkClosure fun text => pySplitRow .re2M pattern.data maxsplit text.data))
    (fun _ => ⟨.pyreEngine, fun text => pySplitRow .pyM pattern.data maxsplit text.data⟩)

/-- `regexp_replace` of `regex_utils.py` (lines 59-88), scalar pattern
and replacement. -/
def regexp_replace (pattern replacement : String) : ColumnModel :=
  pyTry
    (udfApply .re2Engine
      (mkClosure fun text => pySubRow .re2M pattern.data replacement.data text.data))
    (fun _ => ⟨.pyreEngine, fun text => pySubRow .pyM pattern.data replacement.data text.data⟩)

/-- `regexp_extract` of `regex_utils.py` (lines 91-133). -/
def regexp_extract (pattern : String) (idx : Int) : ColumnModel :=
  pyTry
    (udfApply .re2Engine (mkClosure fun text => pyExtractRow .re2M pattern.data idx text.data))
    (fun _ => ⟨.pyreEngine, fun text => pyExtractRow .pyM pattern.data idx text.data⟩)

/-- `rlike` of `regex_utils.py` (lines 136-158). -/
def rlike (other : String) : ColumnModel :=
  pyTry
    (udfApply .re2Engine
      (mkClosure fun text => (pySearch .re2M other.data text.data).map fun o => .vbool o.isSome))
    (fun _ => ⟨.pyreEngine,
      fun text => (pySearch .pyM other.data text.data).map fun o => .vbool o.isSome⟩)

/-- `startswith` of `regex_utils.py` (lines 161-190), scalar `other`. -/
def startswith (other : String) : ColumnModel :=
  pyTry
    (udfApply .re2Engine (mkClosure fun text => pyStartsRow .re2M other.data text.data))
    (fun _ => ⟨.pyreEngine, fun text => pyStartsRow .pyM other.data text.data⟩)

/-- `endswith` of `regex_utils.py` (lines 193-222), scalar `other`. -/
def endswith (other : String) : ColumnModel :=
  pyTry
    (udfApply .re2Engine (mkClosure fun text => pyEndsRow .re2M other.data text.data))
    (fun _ => ⟨.pyreEngine, fun text => pyEndsRow .pyM other.data text.data⟩)

/-! ### Module import side effects (lines 225-233) -/

/-- Who owns a host-library attribute. -/
inductive HostImpl
  | nativeJvm
  | regexUtilsShim
deriving DecidableEq

/-- The host-library attributes `regex_utils` touches, plus one
representative attribute it does not (`F_upper`). -/
structure HostEnv where
  F_split : HostImpl
  F_regexp_replace : HostImpl
  F_regexp_extract : HostImpl
  Column_rlike : HostImpl
  Column_startswith : HostImpl
  Column_endswith : HostImpl
  F_upper : HostImpl
deriving DecidableEq

/-- The host library before `regex_utils` is imported. -/
def initialHostEnv : HostEnv :=
  ⟨.nativeJvm, .nativeJvm, .nativeJvm, .nativeJvm, .nativeJvm, .nativeJvm, .nativeJvm⟩

/-- Importing `regex_utils` executes the six module-level assignments
`F.split = split`, ..., `Column.endswith = endswith` (lines 228-233). -/
def importModule (h : HostEnv) : HostEnv :=
  { h with
    F_split := .regexUtilsShim
    F_regexp_replace := .regexUtilsShim
    F_regexp_extract := .regexUtilsShim
    Column_rlike := .regexUtilsShim
    Column_startswith := .regexUtilsShim
    Column_endswith := .regexUtilsShim }

/-! ### Position lemmas for the matcher -/

/-- Star iteration never moves the match position backwards. -/
theorem mem_starIter_ge (slen : Nat) (body : Nat → Groups → List (Nat × Groups)) :
    ∀ (k pos : Nat) (g : Groups) (pg : Nat × Groups),
      pg ∈ starIter slen body k pos g → pos ≤ pg.1 := by
  intro k
  induction k with
  | zero =>
      intro pos g pg h
      simp only [starIter, List.mem_singleton] at h
      subst h
      exact Nat.le_refl pos
  | succ k ih =>
      intro pos g pg h
      simp only [starIter, List.mem_append, List.mem_flatMap, List.mem_filter,
        List.mem_singleton, Bool.and_eq_true, decide_eq_true_eq] at h
      rcases h with ⟨q, ⟨_, hq1, _⟩, hpg⟩ | rfl
      · exact Nat.le_of_lt (Nat.lt_of_lt_of_le hq1 (ih q.1 q.2 pg hpg))
      · exact Nat.le_refl pos

/-- Star iteration keeps the match position inside the input. -/
theorem mem_starIter_le (slen : Nat) (body : Nat → Groups → List (Nat × Groups)) :
    ∀ (k pos : Nat) (g : Groups) (pg : Nat × Groups), pos ≤ slen →
      pg ∈ starIter slen body k pos g → pg.1 ≤ slen := by
  intro k
  induction k with
  | zero =>
      intro pos g pg hpos h
      simp only [starIter, List.mem_singleton] at h
      subst h
      exact hpos
  | succ k ih =>
      intro pos g pg hpos h
      simp only [starIter, List.mem_append, List.mem_flatMap, List.mem_filter,
        List.mem_singleton, Bool.and_eq_true, decide_eq_true_eq] at h
      rcases h with ⟨q, ⟨_, _, hq2⟩, hpg⟩ | rfl
      · exact ih q.1 q.2 pg hq2 hpg
      · exact hpos

/-- A match never ends before the position it started from. -/
theorem mem_mAll_ge (M : Mode) (s : List Char) :
    ∀ (r : Regex) (pos : Nat) (g : Groups) (pg : Nat × Groups),
      pg ∈ mAll M s r pos g → pos ≤ pg.1 := by
  intro r
  induction r with
  | eps =>
      intro pos g pg h
      simp only [mAll, List.mem_singleton] at h
      subst h; exact Nat.le_refl pos
  | lit c =>
      intro pos g pg h
      simp only [mAll] at h
      split at h
      · split at h
        · simp only [List.mem_singleton] at h; subst h; omega
        · simp at h
      · simp at h
  | anyc =>
      intro pos g pg h
      simp only [mAll] at h
      split at h
      · split at h
        · simp at h
        · simp only [List.mem_singleton] at h; subst h; omega
      · simp at h
  | cls neg items =>
      intro pos g pg h
      simp only [mAll] at h
      split at h
      · split at h
        · simp only [List.mem_singleton] at h; subst h; omega
        · simp at h
      · simp at h
  | caret =>
      intro pos g pg h
      simp only [mAll] at h
      split at h
      · simp only [List.mem_singleton] at h; subst h; omega
      · simp at h
  | dollar =>
      intro pos g pg h
      simp only [mAll] at h
      split at h
      · simp only [List.mem_singleton] at h; subst h; omega
      · simp at h
  | seq r1 r2 ih1 ih2 =>
      intro pos g pg h
      simp only [mAll, List.mem_flatMap] at h
      obtain ⟨q, hq, hpg⟩ := h
      exact Nat.le_trans (ih1 pos g q hq) (ih2 q.1 q.2 pg hpg)
  | alt r1 r2 ih1 ih2 =>
      intro pos g pg h
      simp only [mAll, List.mem_append] at h
      rcases h with h | h
      · exact ih1 pos g pg h
      · exact ih2 pos g pg h
  | star r ih =>
      intro pos g pg h
      exact mem_starIter_ge s.length _ _ pos g pg h
  | group i r ih =>
      intro pos g pg h
      simp only [mAll, List.mem_map] at h
      obtain ⟨q, hq, hpg⟩ := h
      subst hpg
      exact ih pos g q hq
  | bref n =>
      intro pos g pg h
      simp only [mAll] at h
      rcases hg : g.getD (n - 1) none with _ | ab
      · rw [hg] at h; simp at h
      · rw [hg] at h
        obtain ⟨a, b⟩ := ab
        simp only [List.mem_ite_nil_right, List.mem_singleton] at h
        obtain ⟨-, rfl⟩ := h
        exact Nat.le_add_right pos _

/-- A match starting inside the input also ends inside it. -/
theorem mem_mAll_le (M : Mode) (s : List Char) :
    ∀ (r : Regex) (pos : Nat) (g : Groups) (pg : Nat × Groups), pos ≤ s.length →
      pg ∈ mAll M s r pos g → pg.1 ≤ s.length := by
  intro r
  induction r with
  | eps =>
      intro pos g pg hpos h
      simp only [mAll, List.mem_singleton] at h
      subst h; exact hpos
  | lit c =>
      intro pos g pg hpos h
      simp only [mAll] at h
      split at h
      · split at h
        · simp only [List.mem_singleton] at h; subst h; omega
        · simp at h
      · simp at h
  | anyc =>
      intro pos g pg hpos h
      simp only [mAll] at h
      split at h
      · split at h
        · simp at h
        · simp only [List.mem_singleton] at h; subst h; omega
      · simp at h
  | cls neg items =>
      intro pos g pg hpos h
      simp only [mAll] at h
      split at h
      · split at h
        · simp only [List.mem_singleton] at h; subst h; omega
        · simp at h
      · simp at h
  | caret =>
      intro pos g pg hpos h
      simp only [mAll] at h
      split at h
      · simp only [List.mem_singleton] at h; subst h; exact hpos
      · simp at h
  | dollar =>
      intro pos g pg hpos h
      simp only [mAll] at h
      split at h
      · simp only [List.mem_singleton] at h; subst h; exact hpos
      · simp at h
  | seq r1 r2 ih1 ih2 =>
      intro pos g pg hpos h
      simp only [mAll, List.mem_flatMap] at h
      obtain ⟨q, hq, hpg⟩ := h
      exact ih2 q.1 q.2 pg (ih1 pos g q hpos hq) hpg
  | alt r1 r2 ih1 ih2 =>
      intro pos g pg hpos h
      simp only [mAll, List.mem_append] at h
      rcases h with h | h
      · exact ih1 pos g pg hpos h
      · exact ih2 pos g pg hpos h
  | star r ih =>
      intro pos g pg hpos h
      exact mem_starIter_le s.length _ _ pos g pg hpos h
  | group i r ih =>
      intro pos g pg hpos h
      simp only [mAll, List.mem_map] at h
      obtain ⟨q, hq, hpg⟩ := h
      subst hpg
      exact ih pos g q hpos hq
  | bref n =>
      intro pos g pg hpos h
      simp only [mAll] at h
      rcases hg : g.getD (n - 1) none with _ | ab
      · rw [hg] at h; simp at h
      · rw [hg] at h
        obtain ⟨a, b⟩ := ab
        simp only [List.mem_ite_nil_right, List.mem_singleton] at h
        obtain ⟨⟨hle, -⟩, rfl⟩ := h
        exact hle

/-- Shape of a successful anchored match attempt. -/
theorem matchAt_some (M : Mode) (re : Regex) (ng : Nat) (s : List Char) (pos : Nat)
    (mr : MatchRes) (h : matchAt M re ng s pos = some mr) :
    mr.ms = pos ∧ pos ≤ mr.me ∧ (pos ≤ s.length → mr.me ≤ s.length) := by
  unfold matchAt at h
  rcases hl : mAll M s re pos (List.replicate ng none) with _ | ⟨pg, tl⟩
  · rw [hl] at h; simp at h
  · rw [hl] at h
    simp only [List.head?_cons, Option.map_some', Option.some.injEq] at h
    have hmem : pg ∈ mAll M s re pos (List.replicate ng none) := by
      rw [hl]; exact List.mem_cons_self pg tl
    subst h
    exact ⟨rfl, mem_mAll_ge M s re pos _ pg hmem, fun hp => mem_mAll_le M s re pos _ pg hp hmem⟩

/-- Shape of a successful scan from `pos`. -/
theorem searchFromAux_some (M : Mode) (re : Regex) (ng : Nat) (s : List Char) :
    ∀ (k pos : Nat) (mr : MatchRes), searchFromAux M re ng s k pos = some mr →
      pos ≤ mr.ms ∧ mr.ms ≤ s.length ∧ mr.ms ≤ mr.me ∧ mr.me ≤ s.length ∧
        matchAt M re ng s mr.ms = some mr := by
  intro k
  induction k with
  | zero => intro pos mr h; simp [searchFromAux] at h
  | succ k ih =>
      intro pos mr h
      simp only [searchFromAux] at h
      split at h
      · simp at h
      · rename_i hpos
        rcases hm : matchAt M re ng s pos with _ | m
        · simp only [hm] at h
          obtain ⟨h1, h2, h3, h4, h5⟩ := ih (pos + 1) mr h
          exact ⟨by omega, h2, h3, h4, h5⟩
        · simp only [hm, Option.some.injEq] at h
          subst h
          obtain ⟨he, hme, hlen⟩ := matchAt_some M re ng s pos m hm
          have hps : pos ≤ s.length := by omega
          refine ⟨by omega, by omega, by omega, hlen hps, ?_⟩
          rw [he]; exact hm

/-- A scan from `pos` with budget `k` fails exactly when no position in
its window admits a match. -/
theorem searchFromAux_none_iff (M : Mode) (re : Regex) (ng : Nat) (s : List Char) :
    ∀ (k pos : Nat), searchFromAux M re ng s k pos = none ↔
      ∀ i, pos ≤ i → i < pos + k → i ≤ s.length → matchAt M re ng s i = none := by
  intro k
  induction k with
  | zero =>
      intro pos
      simp only [searchFromAux, true_iff]
      intro i h1 h2
      omega
  | succ k ih =>
      intro pos
      simp only [searchFromAux]
      split
      · rename_i hpos
        simp only [true_iff]
        intro i h1 h2 h3
        omega
      · rename_i hpos
        rcases hm : matchAt M re ng s pos with _ | m
        · simp only [hm]
          rw [ih (pos + 1)]
          constructor
          · intro hall i h1 h2 h3
            rcases Nat.eq_or_lt_of_le h1 with rfl | h1'
            · exact hm
            · exact hall i h1' (by omega) h3
          · intro hall i h1 h2 h3
            exact hall i (by omega) (by omega) h3
        · simp only [hm]
          constructor
          · intro hc
            exact Option.noConfusion hc
          · intro hall
            have := hall pos (Nat.le_refl pos) (by omega) (by omega)
            rw [hm] at this
            exact Option.noConfusion this

/-- `searchFrom` fails exactly when no position admits a match. -/
theorem searchFrom_none_iff (M : Mode) (re : Regex) (ng : Nat) (s : List Char) (pos : Nat) :
    searchFrom M re ng s pos = none ↔
      ∀ i, pos ≤ i → i ≤ s.length → matchAt M re ng s i = none := by
  unfold searchFrom
  rw [searchFromAux_none_iff]
  constructor
  · intro h i h1 h2
    exact h i h1 (by omega) h2
  · intro h i h1 _ h3
    exact h i h1 h3

/-- Shape of a successful `searchFrom`. -/
theorem searchFrom_some (M : Mode) (re : Regex) (ng : Nat) (s : List Char) (pos : Nat)
    (mr : MatchRes) (h : searchFrom M re ng s pos = some mr) :
    pos ≤ mr.ms ∧ mr.ms ≤ s.length ∧ mr.ms ≤ mr.me ∧ mr.me ≤ s.length ∧
      matchAt M re ng s mr.ms = some mr :=
  searchFromAux_some M re ng s _ pos mr h

/-- The `finditer` scan position strictly advances after every match:
this is exactly the claim that each split step advances by at least one
character. -/
theorem searchFrom_nextScan_gt (M : Mode) (re : Regex) (ng : Nat) (s : List Char)
    (pos : Nat) (mr : MatchRes) (h : searchFrom M re ng s pos = some mr) :
    pos < nextScan mr := by
  obtain ⟨h1, h2, h3, h4, -⟩ := searchFrom_some M re ng s pos mr h
  unfold nextScan
  split <;> omega

/-- The scan position never leaves `[0, length + 1]`. -/
theorem nextScan_le (s : List Char) (mr : MatchRes) (h4 : mr.me ≤ s.length) :
    nextScan mr ≤ s.length + 1 := by
  unfold nextScan
  split <;> omega

/-- With a budget exceeding the number of remaining scan positions, the
`finditer` loop always finishes. -/
theorem finditerAux_isSome (M : Mode) (re : Regex) (ng : Nat) (s : List Char) :
    ∀ (k pos : Nat), s.length + 1 - pos < k → (finditerAux M re ng s k pos).isSome := by
  intro k
  induction k with
  | zero => intro pos h; omega
  | succ k ih =>
      intro pos h
      simp only [finditerAux]
      rcases hs : searchFrom M re ng s pos with _ | mr
      · simp
      · obtain ⟨h1, h2, h3, h4, -⟩ := searchFrom_some M re ng s pos mr hs
        have hgt := searchFrom_nextScan_gt M re ng s pos mr hs
        have hle := nextScan_le s mr h4
        have hk : s.length + 1 - nextScan mr < k := by omega
        have hsome := ih (nextScan mr) hk
        rcases hfa : finditerAux M re ng s k (nextScan mr) with _ | l
        · rw [hfa] at hsome; simp at hsome
        · simp [hfa]

/-- `finditer` always terminates: its budget is sufficient. -/
theorem finditer_isSome (M : Mode) (re : Regex) (ng : Nat) (s : List Char) :
    (finditer M re ng s).isSome :=
  finditerAux_isSome M re ng s (s.length + 2) 0 (by omega)

/-! ### Parser lemmas for escaped-literal patterns -/

/-- A word character is none of the parser's metacharacters. -/
theorem wordChar_spec (c : Char) (h : isWordChar c = true) :
    c ≠ '(' ∧ c ≠ '[' ∧ c ≠ '\\' ∧ c ≠ '.' ∧ c ≠ '^' ∧ c ≠ '$' ∧
      c ≠ '*' ∧ c ≠ '+' ∧ c ≠ '?' ∧ c ≠ '|' ∧ c ≠ ')' := by
  refine ⟨?_, ?_, ?_, ?_, ?_, ?_, ?_, ?_, ?_, ?_, ?_⟩ <;> (rintro rfl; revert h; decide)

/-- An unescaped word character parses as a literal atom. -/
theorem parseAtom_word (M : Mode) (k g : Nat) (c : Char) (cs : List Char)
    (h : isWordChar c = true) :
    parseF M (k + 1) .patom (c :: cs) g = .ok (.lit c, cs, g) := by
  obtain ⟨h1, h2, h3, h4, h5, h6, h7, h8, h9, -, -⟩ := wordChar_spec c h
  simp only [parseF]
  rw [if_neg h1, if_neg h2, if_neg h3, if_neg h4, if_neg h5, if_neg h6,
    if_neg (by simp [h7, h8, h9])]

/-- A backslash-escaped non-word character parses as a literal atom. -/
theorem parseAtom_escaped (M : Mode) (k g : Nat) (c : Char) (cs : List Char)
    (h : isWordChar c = false) :
    parseF M (k + 1) .patom ('\\' :: c :: cs) g = .ok (.lit c, cs, g) := by
  simp only [parseF]
  rw [if_neg (by decide), if_neg (by decide)]
  simp [escAtom, h, Except.map]

/-- The `^` anchor parses as an atom. -/
theorem parseAtom_caret (M : Mode) (k g : Nat) (cs : List Char) :
    parseF M (k + 1) .patom ('^' :: cs) g = .ok (.caret, cs, g) := by
  simp only [parseF]
  rw [if_neg (by decide), if_neg (by decide), if_neg (by decide), if_neg (by decide)]
  simp

/-- The `$` anchor parses as an atom. -/
theorem parseAtom_dollar (M : Mode) (k g : Nat) (cs : List Char) :
    parseF M (k + 1) .patom ('$' :: cs) g = .ok (.dollar, cs, g) := by
  simp only [parseF]
  rw [if_neg (by decide), if_neg (by decide), if_neg (by decide), if_neg (by decide),
    if_neg (by decide)]
  simp

/-- The head of an escaped literal is a backslash or a word character. -/
theorem escList_head (l : List Char) (c : Char) (h : (escList l).head? = some c) :
    c = '\\' ∨ isWordChar c = true := by
  cases l with
  | nil => simp [escList] at h
  | cons a t =>
      by_cases hw : isWordChar a
      · simp [escList, escapeChar, hw] at h
        subst h
        exact Or.inr hw
      · simp [escList, escapeChar, hw] at h
        subst h
        exact Or.inl rfl

/-- A quantifier character never begins an escaped literal followed by a
quantifier-free tail. -/
theorem escList_append_quantfree (rest t : List Char)
    (ht : ∀ c, t.head? = some c → c ≠ '*' ∧ c ≠ '+' ∧ c ≠ '?') :
    ∀ c, (escList rest ++ t).head? = some c → c ≠ '*' ∧ c ≠ '+' ∧ c ≠ '?' := by
  intro c hc
  cases he : escList rest with
  | nil =>
      rw [he, List.nil_append] at hc
      exact ht c hc
  | cons a u =>
      rw [he, List.cons_append, List.head?_cons] at hc
      have hac : a = c := by injection hc
      have hhead := escList_head rest a (by rw [he]; rfl)
      rw [hac] at hhead
      rcases hhead with rfl | hw
      · exact ⟨by decide, by decide, by decide⟩
      · obtain ⟨-, -, -, -, -, -, h7, h8, h9, -, -⟩ := wordChar_spec c hw
        exact ⟨h7, h8, h9⟩

/-- Without a following quantifier character, `applyQuant` is the
identity. -/
theorem applyQuant_id (r : Regex) (cs : List Char)
    (h : ∀ c, cs.head? = some c → c ≠ '*' ∧ c ≠ '+' ∧ c ≠ '?') :
    applyQuant r cs = (r, cs) := by
  cases cs with
  | nil => rfl
  | cons c rest =>
      obtain ⟨h1, h2, h3⟩ := h c rfl
      simp [applyQuant, h1, h2, h3]

/-- Escaping only lengthens a string. -/
theorem escList_length_ge (l : List Char) : l.length ≤ (escList l).length := by
  induction l with
  | nil => simp [escList]
  | cons c rest ih =>
      have h1 : escList (c :: rest) = escapeChar c ++ escList rest := by
        simp [escList]
      have h2 : 1 ≤ (escapeChar c).length := by
        unfold escapeChar; split <;> simp
      rw [h1, List.length_append, List.length_cons]
      omega

/-- Parsing an escaped literal consumes it into a chain of literal atoms
and continues with the tail, spending one fuel unit per literal. -/
theorem parseSeq_escList (M : Mode) (t : List Char)
    (ht : ∀ c, t.head? = some c → c ≠ '*' ∧ c ≠ '+' ∧ c ≠ '?') :
    ∀ (l : List Char) (k g : Nat), l.length + 2 ≤ k →
      parseF M k .pseq (escList l ++ t) g =
        (parseF M (k - l.length) .pseq t g).map fun p =>
          ((l.map Regex.lit).foldr Regex.seq p.1, p.2) := by
  intro l
  induction l with
  | nil =>
      intro k g hk
      simp only [escList, List.flatMap_nil, List.nil_append, List.map_nil, List.foldr_nil,
        Nat.sub_zero]
      rcases hres : parseF M k .pseq t g with e | ⟨r, cs, g2⟩ <;> simp [hres, Except.map]
  | cons c rest ih =>
      intro k g hk
      obtain ⟨k1, rfl⟩ : ∃ k1, k = k1 + 1 + 1 := ⟨k - 2, by omega⟩
      have hq : ∀ d, (escList rest ++ t).head? = some d → d ≠ '*' ∧ d ≠ '+' ∧ d ≠ '?' :=
        escList_append_quantfree rest t ht
      have harith : k1 + 1 + 1 - (c :: rest).length = k1 + 1 - rest.length := by
        simp only [List.length_cons]; omega
      by_cases hw : isWordChar c
      · have hl : escList (c :: rest) ++ t = c :: (escList rest ++ t) := by
          simp [escList, escapeChar, hw]
        rw [hl]
        obtain ⟨-, -, -, -, -, -, -, -, -, hA, hB⟩ := wordChar_spec c hw
        rw [parseF.eq_2, if_neg (by simp [hA, hB])]
        rw [parseAtom_word M k1 g c _ hw]
        simp only [applyQuant_id (Regex.lit c) _ hq]
        rw [ih (k1 + 1) g (by omega)]
        rw [harith]
        rcases hres : parseF M (k1 + 1 - rest.length) .pseq t g with e | ⟨r', cs', g'⟩ <;>
          simp [hres, Except.map]
      · have hwf : isWordChar c = false := by simpa using hw
        have hl : escList (c :: rest) ++ t = '\\' :: c :: (escList rest ++ t) := by
          simp [escList, escapeChar, hwf]
        rw [hl]
        rw [parseF.eq_2, if_neg (by simp)]
        rw [parseAtom_escaped M k1 g c _ hwf]
        simp only [applyQuant_id (Regex.lit c) _ hq]
        rw [ih (k1 + 1) g (by omega)]
        rw [harith]
        rcases hres : parseF M (k1 + 1 - rest.length) .pseq t g with e | ⟨r', cs', g'⟩ <;>
          simp [hres, Except.map]

/-- Any escaped literal is quantifier-free at its head. -/
theorem escList_quantfree (l : List Char) :
    ∀ d, (escList l).head? = some d → d ≠ '*' ∧ d ≠ '+' ∧ d ≠ '?' := by
  intro d hd
  rcases escList_head l d hd with rfl | hw
  · exact ⟨by decide, by decide, by decide⟩
  · obtain ⟨-, -, -, -, -, -, h7, h8, h9, -, -⟩ := wordChar_spec d hw
    exact ⟨h7, h8, h9⟩

/-- Parsing the `startswith` pattern body: a caret followed by the
escaped literal. -/
theorem parseSeq_caret (M : Mode) (l : List Char) (k g : Nat) (h : l.length + 3 ≤ k) :
    parseF M k .pseq ('^' :: escList l) g =
      .ok (.seq .caret ((l.map Regex.lit).foldr Regex.seq .eps), [], g) := by
  obtain ⟨k1, rfl⟩ : ∃ k1, k = k1 + 1 + 1 := ⟨k - 2, by omega⟩
  rw [parseF.eq_2, if_neg (by simp)]
  rw [parseAtom_caret M k1 g _]
  simp only [applyQuant_id Regex.caret _ (escList_quantfree l)]
  rw [show escList l = escList l ++ ([] : List Char) from (List.append_nil _).symm]
  rw [parseSeq_escList M [] (by intro c hc; simp at hc) l (k1 + 1) g (by omega)]
  obtain ⟨k2, hk2⟩ : ∃ k2, k1 + 1 - l.length = k2 + 1 := ⟨k1 - l.length, by omega⟩
  rw [hk2, parseF.eq_2, if_pos (by simp)]
  simp [Except.map]

/-- Parsing the `endswith` pattern body: the escaped literal followed by
a dollar anchor. -/
theorem parseSeq_litsDollar (M : Mode) (l : List Char) (k g : Nat) (h : l.length + 4 ≤ k) :
    parseF M k .pseq (escList l ++ ['$']) g =
      .ok ((l.map Regex.lit).foldr Regex.seq (.seq .dollar .eps), [], g) := by
  have ht : ∀ c, (['$'] : List Char).head? = some c → c ≠ '*' ∧ c ≠ '+' ∧ c ≠ '?' := by
    intro c hc
    simp only [List.head?_cons, Option.some.injEq] at hc
    subst hc
    exact ⟨by decide, by decide, by decide⟩
  rw [parseSeq_escList M ['$'] ht l k g (by omega)]
  obtain ⟨k1, hk1⟩ : ∃ k1, k - l.length = k1 + 1 + 1 := ⟨k - l.length - 2, by omega⟩
  rw [hk1, parseF.eq_2, if_neg (by simp)]
  rw [parseAtom_dollar M k1 g []]
  simp only [applyQuant]
  rw [parseF.eq_2, if_pos (by simp)]
  simp [Except.map]

/-- A sequence parse consuming the whole input lifts to the alternation
level unchanged. -/
theorem parseAlt_wrap (M : Mode) (cs : List Char) (k g : Nat) (r : Regex) (g2 : Nat)
    (h : parseF M k .pseq cs g = .ok (r, [], g2)) :
    parseF M (k + 1) .palt cs g = .ok (r, [], g2) := by
  rw [parseF.eq_3, h]

/-- Compiling the pattern built by `startswith` yields the anchored
literal chain, with no capture groups. -/
theorem reParse_caretLits (M : Mode) (l : List Char) :
    reParse M ('^' :: escList l) =
      .ok (.seq .caret ((l.map Regex.lit).foldr Regex.seq .eps), 0) := by
  unfold reParse
  have hlen := escList_length_ge l
  obtain ⟨k, hk⟩ : ∃ k, 2 * ('^' :: escList l).length + 8 = k + 1 :=
    ⟨2 * ('^' :: escList l).length + 7, by omega⟩
  rw [hk]
  rw [parseAlt_wrap M _ k 1 _ 1
    (parseSeq_caret M l k 1 (by simp only [List.length_cons] at hk; omega))]

/-- Compiling the pattern built by `endswith` yields the end-anchored
literal chain, with no capture groups. -/
theorem reParse_litsDollar (M : Mode) (l : List Char) :
    reParse M (escList l ++ ['$']) =
      .ok ((l.map Regex.lit).foldr Regex.seq (.seq .dollar .eps), 0) := by
  unfold reParse
  have hlen := escList_length_ge l
  obtain ⟨k, hk⟩ : ∃ k, 2 * (escList l ++ ['$']).length + 8 = k + 1 :=
    ⟨2 * (escList l ++ ['$']).length + 7, by omega⟩
  rw [hk]
  rw [parseAlt_wrap M _ k 1 _ 1
    (parseSeq_litsDollar M l k 1
      (by simp only [List.length_append, List.length_cons, List.length_nil] at hk; omega))]

/-! ### Matching literal chains -/

/-- Matching a chain of literal atoms succeeds exactly when the literal
is present at the current position; it consumes the literal and
continues with the tail regex. -/
theorem mAll_litFold (M : Mode) (s : List Char) (tail : Regex) :
    ∀ (l : List Char) (pos : Nat) (g : Groups),
      mAll M s ((l.map Regex.lit).foldr Regex.seq tail) pos g =
        if l <+: s.drop pos then mAll M s tail (pos + l.length) g else [] := by
  intro l
  induction l with
  | nil =>
      intro pos g
      simp
  | cons c rest ih =>
      intro pos g
      simp only [List.map_cons, List.foldr_cons, List.length_cons]
      rw [show mAll M s (.seq (.lit c) ((rest.map Regex.lit).foldr Regex.seq tail)) pos g =
        (mAll M s (.lit c) pos g).flatMap
          (fun pg => mAll M s ((rest.map Regex.lit).foldr Regex.seq tail) pg.1 pg.2) from rfl]
      by_cases hpos : pos < s.length
      · by_cases hc : s[pos] = c
        · rw [show mAll M s (.lit c) pos g = [(pos + 1, g)] by
            simp only [mAll]; rw [dif_pos hpos, if_pos hc]]
          simp only [List.flatMap_cons, List.flatMap_nil, List.append_nil]
          rw [ih (pos + 1) g]
          by_cases hr : rest <+: s.drop (pos + 1)
          · have hpre : c :: rest <+: s.drop pos := by
              rw [List.drop_eq_getElem_cons hpos, List.cons_prefix_cons]
              exact ⟨hc.symm, hr⟩
            rw [if_pos hr, if_pos hpre]
            congr 1
            omega
          · have hpre : ¬(c :: rest <+: s.drop pos) := by
              rw [List.drop_eq_getElem_cons hpos, List.cons_prefix_cons]
              rintro ⟨-, hcontra⟩
              exact hr hcontra
            rw [if_neg hr, if_neg hpre]
        · rw [show mAll M s (.lit c) pos g = [] by
            simp only [mAll]; rw [dif_pos hpos, if_neg hc]]
          have hpre : ¬(c :: rest <+: s.drop pos) := by
            rw [List.drop_eq_getElem_cons hpos, List.cons_prefix_cons]
            rintro ⟨hcc, -⟩
            exact hc hcc.symm
          rw [if_neg hpre]
          simp
      · rw [show mAll M s (.lit c) pos g = [] by
            simp only [mAll]; rw [dif_neg hpos]]
        have hdrop : s.drop pos = [] := List.drop_eq_nil_of_le (by omega)
        have hpre : ¬(c :: rest <+: s.drop pos) := by
          rw [hdrop]
          intro hcontra
          have := hcontra.length_le
          simp at this
        rw [if_neg hpre]
        simp

/-- The anchored match attempt of the `startswith` pattern: it succeeds
only at position 0, exactly on a literal prefix. -/
theorem matchAt_caretLits (M : Mode) (l s : List Char) (i : Nat) :
    matchAt M (.seq .caret ((l.map Regex.lit).foldr Regex.seq .eps)) 0 s i
      = if i = 0 ∧ l <+: s then some ⟨0, l.length, []⟩ else none := by
  unfold matchAt
  rw [show mAll M s (.seq .caret ((l.map Regex.lit).foldr Regex.seq .eps)) i
        (List.replicate 0 none)
      = (mAll M s .caret i []).flatMap
          (fun pg => mAll M s ((l.map Regex.lit).foldr Regex.seq .eps) pg.1 pg.2) from rfl]
  by_cases hi : i = 0
  · subst hi
    rw [show mAll M s .caret 0 [] = [(0, [])] by simp [mAll]]
    simp only [List.flatMap_cons, List.flatMap_nil, List.append_nil]
    rw [mAll_litFold M s .eps l 0 []]
    by_cases hp : l <+: s
    · rw [if_pos (by simpa using hp), if_pos (by simp [hp])]
      simp [mAll]
    · rw [if_neg (by simpa using hp), if_neg (by rintro ⟨-, hcontra⟩; exact hp hcontra)]
      rfl
  · rw [show mAll M s .caret i [] = [] by simp [mAll, hi]]
    rw [if_neg (by rintro ⟨hcontra, -⟩; exact hi hcontra)]
    rfl

/-- The search performed by `startswith` reports exactly the literal
prefix test. -/
theorem searchFrom_caretLits (M : Mode) (l s : List Char) :
    (searchFrom M (.seq .caret ((l.map Regex.lit).foldr Regex.seq .eps)) 0 s 0).isSome
      = decide (l <+: s) := by
  by_cases hp : l <+: s
  · unfold searchFrom
    obtain ⟨k, hk⟩ : ∃ k, s.length + 1 - 0 = k + 1 := ⟨s.length, by omega⟩
    rw [hk]
    simp only [searchFromAux]
    rw [if_neg (by omega)]
    rw [matchAt_caretLits M l s 0, if_pos (by simp [hp])]
    simp [hp]
  · have hnone :
        searchFrom M (.seq .caret ((l.map Regex.lit).foldr Regex.seq .eps)) 0 s 0 = none := by
      rw [searchFrom_none_iff]
      intro i _ _
      rw [matchAt_caretLits M l s i]
      rw [if_neg (by rintro ⟨-, hcontra⟩; exact hp hcontra)]
    rw [hnone]
    simp [hp]

/-- The anchored match attempt of the `endswith` pattern under re2's
end-of-text `$`: it succeeds exactly when the literal occupies the rest
of the input. -/
theorem matchAt_litsDollar (l s : List Char) (i : Nat) :
    matchAt .re2M ((l.map Regex.lit).foldr Regex.seq (.seq .dollar .eps)) 0 s i
      = if l <+: s.drop i ∧ i + l.length = s.length then some ⟨i, i + l.length, []⟩
        else none := by
  unfold matchAt
  rw [show (List.replicate 0 (none : Option (Nat × Nat))) = [] from rfl]
  rw [mAll_litFold .re2M s (.seq .dollar .eps) l i []]
  by_cases hp : l <+: s.drop i
  · rw [if_pos hp]
    rw [show mAll .re2M s (.seq .dollar .eps) (i + l.length) []
        = (mAll .re2M s .dollar (i + l.length) []).flatMap
            (fun pg => mAll .re2M s .eps pg.1 pg.2) from rfl]
    by_cases hd : i + l.length = s.length
    · rw [show mAll .re2M s .dollar (i + l.length) [] = [(i + l.length, [])] by
        simp only [mAll]; rw [if_pos (Or.inl hd)]]
      rw [if_pos ⟨hp, hd⟩]
      simp [mAll]
    · rw [show mAll .re2M s .dollar (i + l.length) [] = [] by
        simp only [mAll]
        rw [if_neg (by rintro (h | ⟨hmode, -⟩); exact hd h; exact Mode.noConfusion hmode)]]
      rw [if_neg (by rintro ⟨-, hcontra⟩; exact hd hcontra)]
      rfl
  · rw [if_neg hp, if_neg (by rintro ⟨hcontra, -⟩; exact hp hcontra)]
    rfl

/-- The search performed by `endswith` reports exactly the literal
suffix test. -/
theorem searchFrom_litsDollar (l s : List Char) :
    (searchFrom .re2M ((l.map Regex.lit).foldr Regex.seq (.seq .dollar .eps)) 0 s 0).isSome
      = decide (l <:+ s) := by
  by_cases hsuf : l <:+ s
  · obtain ⟨t, ht⟩ := hsuf
    have hlen : t.length + l.length = s.length := by
      rw [← ht]; simp
    have hdrop : s.drop t.length = l := by
      rw [← ht]; exact List.drop_left t l
    have hmi : matchAt .re2M ((l.map Regex.lit).foldr Regex.seq (.seq .dollar .eps)) 0 s t.length
        = some ⟨t.length, t.length + l.length, []⟩ := by
      rw [matchAt_litsDollar l s t.length, if_pos ⟨by rw [hdrop], by omega⟩]
    have hne :
        searchFrom .re2M ((l.map Regex.lit).foldr Regex.seq (.seq .dollar .eps)) 0 s 0
          ≠ none := by
      intro hn
      have hall := (searchFrom_none_iff .re2M
        ((l.map Regex.lit).foldr Regex.seq (.seq .dollar .eps)) 0 s 0).mp hn t.length
        (by omega) (by omega)
      rw [hmi] at hall
      exact Option.noConfusion hall
    rcases hres :
        searchFrom .re2M ((l.map Regex.lit).foldr Regex.seq (.seq .dollar .eps)) 0 s 0 with
      _ | mr
    · exact absurd hres hne
    · have : l <:+ s := ⟨t, ht⟩
      simp [this]
  · have hnone :
        searchFrom .re2M ((l.map Regex.lit).foldr Regex.seq (.seq .dollar .eps)) 0 s 0
          = none := by
      rw [searchFrom_none_iff]
      intro i _ hi2
      rw [matchAt_litsDollar l s i]
      rw [if_neg ?_]
      rintro ⟨hp, hd⟩
      apply hsuf
      obtain ⟨u, hu⟩ := hp
      have hulen := congrArg List.length hu
      simp only [List.length_append, List.length_drop] at hulen
      have hu0 : u = [] := by
        have : u.length = 0 := by omega
        exact List.length_eq_zero.mp this
      subst hu0
      rw [List.append_nil] at hu
      rw [hu]
      exact List.drop_suffix i s
    rw [hnone]
    simp [hsuf]

/-! ### Replacement-template lemmas -/

/-- A replacement containing no backslash expands to itself. -/
theorem expandT_no_backslash (s : List Char) (ng : Nat) (gs : Groups) :
    ∀ (r : List Char), '\\' ∉ r → expandT s ng gs false r = .ok r := by
  intro r
  induction r with
  | nil => intro _; rfl
  | cons c rest ih =>
      intro h
      simp only [List.mem_cons, not_or] at h
      obtain ⟨h1, h2⟩ := h
      have hc : ¬ c = '\\' := fun e => h1 e.symm
      simp only [expandT]
      rw [if_neg hc, ih h2]
      rfl

/-- With a backslash-free replacement, the interleaving built by `sub`
is exactly the literal one the specification describes. -/
theorem subBuild_literal (s : List Char) (ng : Nat) (r : List Char) (hr : '\\' ∉ r) :
    ∀ (ms : List MatchRes) (e : Nat),
      subBuild s ng r ms e = .ok (literalSubSpec s r ms e) := by
  intro ms
  induction ms with
  | nil => intro e; rfl
  | cons mr rest ih =>
      intro e
      rw [show subBuild s ng r (mr :: rest) e =
        (match expandT s ng mr.groups false r with
         | .error er => .error er
         | .ok x =>
             match subBuild s ng r rest mr.me with
             | .error er => .error er
             | .ok t => .ok (sliceL s e mr.ms ++ x ++ t)) from rfl]
      rw [expandT_no_backslash s ng mr.groups r hr]
      rw [ih mr.me]
      rfl

/-! ### Claim theorems -/

/-- Claim C1 (code bug): the claim says an unsupported-but-valid pattern
such as the backreference `(a)\1` is silently routed to the fallback
engine and still matches correctly, never raising a user-visible error.
In the code the returned column is always the re2-based one, and
evaluating it on a row raises the engine's compile error (`re2.error`),
which the columnar runtime surfaces to the user; the fallback engine,
had it been reached, would have matched `"aa"` with span (0,2). -/
theorem claim_C1_backref_pattern_raises :
    (rlike "(a)\\1").engine = .re2Engine ∧
      (rlike "(a)\\1").run "aa" = .error .compileError ∧
      pySearch .pyM "(a)\\1".data "aa".data = .ok (some ⟨0, 2, [some (0, 1)]⟩) :=
  ⟨rfl, by decide, by decide⟩

/-- Claim C2 (code bug): the claim (and the function's own docstring)
says `split(s, p, limit)` with `limit > 0` returns at most `limit`
elements, e.g. `split("a,b,c", ",", 2) = ["a", "b,c"]`.  The code passes
`limit` as the engine's `maxsplit` — the number of splits — so the
result is `["a", "b", "c"]`, which has 3 > 2 elements. -/
theorem claim_C2_split_limit_eval :
    (split "," 2).run "a,b,c" = .ok (.varr [.cs "a", .cs "b", .cs "c"]) ∧
      2 < ([Cell.cs "a", Cell.cs "b", Cell.cs "c"] : List Cell).length :=
  ⟨by decide, by decide⟩

/-- Claim C3 (code bug): the claim (and the docstring) says
`regexp_extract` returns the empty string for a group index outside the
declared range.  The code calls `Match.group(idx)`, which raises an
`IndexError` for such an index (and yields SQL `NULL`, not `""`, for a
declared group that did not participate). -/
theorem claim_C3_extract_oob_raises :
    (regexp_extract "(\\w+)=(\\w+)" 5).run "key=value" = .error .indexError ∧
      (regexp_extract "(a)|(b)" 2).run "a" = .ok .vnull :=
  ⟨by decide, by decide⟩

/-- Claim C4, counterexample: `regexp_replace` does not insert the
replacement literally.  On string `"ab"`, pattern `"(a)"` and
replacement `"\1x"` the code produces `"axb"` (the `\1` was expanded to
the captured `"a"`), not the literal insertion `"\1xb"` the claim
requires. -/
theorem claim_C4_counterexample :
    (regexp_replace "(a)" "\\1x").run "ab" = .ok (.vstr "axb") ∧
      (Except.ok (PyVal.vstr "axb") : Except PyErr PyVal) ≠ .ok (.vstr "\\1xb") :=
  ⟨by decide, by decide⟩

/-- Claim C4 (amended): `regexp_replace(s, p, r)` replaces every match
span of `p` in `s` with `r` expanded as a replacement template (where
`\N` inserts capture group `N`'s text); when `r` contains no backslash
it is inserted literally, and the result is the concatenation of the
unmatched and replaced segments in original order
(`literalSubSpec`). -/
theorem claim_C4_replace_template (p r s : String) (re : Regex) (ng : Nat) (ms : List MatchRes)
    (hp : reParse .re2M p.data = .ok (re, ng))
    (hf : finditer .re2M re ng s.data = some ms)
    (hr : '\\' ∉ r.data) :
    (regexp_replace p r).run s =
      .ok (.vstr (String.mk (literalSubSpec s.data r.data ms 0))) := by
  show pySubRow .re2M p.data r.data s.data = _
  unfold pySubRow
  simp only [hp, hf, subBuild_literal s.data ng r.data hr ms 0]
  rfl

/-- Witness for C4 at the specification's own example:
`regexp_replace("2024-01-02", "[0-9]+", "#") = "#-#-#"`. -/
theorem claim_C4_witness :
    reParse .re2M "[0-9]+".data =
        .ok (.seq (.seq (.cls false [.crange '0' '9'])
          (.star (.cls false [.crange '0' '9']))) .eps, 0) ∧
      finditer .re2M
          (.seq (.seq (.cls false [.crange '0' '9'])
            (.star (.cls false [.crange '0' '9']))) .eps) 0 "2024-01-02".data
        = some [⟨0, 4, []⟩, ⟨5, 7, []⟩, ⟨8, 10, []⟩] ∧
      '\\' ∉ "#".data ∧
      (regexp_replace "[0-9]+" "#").run "2024-01-02" =
        .ok (.vstr (String.mk (literalSubSpec "2024-01-02".data "#".data
          [⟨0, 4, []⟩, ⟨5, 7, []⟩, ⟨8, 10, []⟩] 0))) ∧
      (regexp_replace "[0-9]+" "#").run "2024-01-02" = .ok (.vstr "#-#-#") :=
  ⟨by decide, by decide, by decide,
    claim_C4_replace_template "[0-9]+" "#" "2024-01-02"
      (.seq (.seq (.cls false [.crange '0' '9'])
        (.star (.cls false [.crange '0' '9']))) .eps) 0
      [⟨0, 4, []⟩, ⟨5, 7, []⟩, ⟨8, 10, []⟩] (by decide) (by decide) (by decide),
    by decide⟩

/-- Claim C5 (confirmed): `startswith(s, l)` treats every regex
metacharacter in `l` as literal text: for all strings it decides
exactly the literal-prefix relation, and in particular
`startswith("abc.def", ".")` is false although `.` is a regex
metacharacter. -/
theorem claim_C5_startswith_literal :
    (∀ (s l : String),
        (startswith l).run s = .ok (.vbool (decide (l.data <+: s.data)))) ∧
      (startswith ".").run "abc.def" = .ok (.vbool false) := by
  constructor
  · intro s l
    show (pySearch .re2M ('^' :: escList l.data) s.data).map (fun o => PyVal.vbool o.isSome)
        = .ok (.vbool (decide (l.data <+: s.data)))
    unfold pySearch
    rw [reParse_caretLits .re2M l.data]
    show Except.ok (PyVal.vbool (searchFrom .re2M
        (.seq .caret ((l.data.map Regex.lit).foldr Regex.seq .eps)) 0 s.data 0).isSome) = _
    rw [searchFrom_caretLits .re2M l.data s.data]
  · decide

/-- Claim C6 (confirmed): `endswith(s, l)` returns true exactly when
`s` ends with `l` as literal text: the pattern is the escaped literal
anchored with `$`, and under re2's `$` the match must end at the end of
the input. -/
theorem claim_C6_endswith_literal :
    (∀ (s l : String),
        (endswith l).run s = .ok (.vbool (decide (l.data <:+ s.data)))) ∧
      (endswith "def").run "abc.def" = .ok (.vbool true) := by
  constructor
  · intro s l
    show (pySearch .re2M (escList l.data ++ ['$']) s.data).map (fun o => PyVal.vbool o.isSome)
        = .ok (.vbool (decide (l.data <:+ s.data)))
    unfold pySearch
    rw [reParse_litsDollar .re2M l.data]
    show Except.ok (PyVal.vbool (searchFrom .re2M
        ((l.data.map Regex.lit).foldr Regex.seq (.seq .dollar .eps)) 0 s.data 0).isSome) = _
    rw [searchFrom_litsDollar l.data s.data]
  · decide

/-- Claim C7 (confirmed): when the compiled pattern has no match
anywhere in `s`, `regexp_replace(s, p, r)` returns `s` unchanged. -/
theorem claim_C7_replace_no_match_identity (p r s : String) (re : Regex) (ng : Nat)
    (hp : reParse .re2M p.data = .ok (re, ng))
    (hnone : searchFrom .re2M re ng s.data 0 = none) :
    (regexp_replace p r).run s = .ok (.vstr s) := by
  show pySubRow .re2M p.data r.data s.data = .ok (.vstr s)
  unfold pySubRow
  have hfin : finditer .re2M re ng s.data = some [] := by
    unfold finditer
    obtain ⟨k, hk⟩ : ∃ k, s.data.length + 2 = k + 1 := ⟨s.data.length + 1, by omega⟩
    rw [hk]
    simp only [finditerAux, hnone]
  simp only [hp, hfin]
  show Except.ok (PyVal.vstr (String.mk (s.data.drop 0))) = .ok (.vstr s)
  rw [List.drop_zero]

/-- Witness for C7: the pattern `"z"` has no match in `"ab"`, and
replacement leaves the string unchanged. -/
theorem claim_C7_witness :
    reParse .re2M "z".data = .ok (.seq (.lit 'z') .eps, 0) ∧
      searchFrom .re2M (.seq (.lit 'z') .eps) 0 "ab".data 0 = none ∧
      (regexp_replace "z" "#").run "ab" = .ok (.vstr "ab") :=
  ⟨by decide, by decide,
    claim_C7_replace_no_match_identity "z" "#" "ab" (.seq (.lit 'z') .eps) 0
      (by decide) (by decide)⟩

/-- Claim C8 (confirmed): the split scan terminates on every pattern and
input.  After each reported delimiter match the scan position strictly
advances (by at least one character, also for empty matches), so the
`finditer` budget is never exhausted and `split` never reports the
non-termination marker. -/
theorem claim_C8_split_scan_advances :
    (∀ (M : Mode) (re : Regex) (ng : Nat) (s : List Char) (pos : Nat) (mr : MatchRes),
        searchFrom M re ng s pos = some mr → pos < nextScan mr) ∧
      (∀ (p : String) (limit : Int) (s : String),
        (split p limit).run s ≠ .error .nonTermination) := by
  constructor
  · intro M re ng s pos mr h
    exact searchFrom_nextScan_gt M re ng s pos mr h
  · intro p limit s
    show pySplitRow .re2M p.data (if limit ≤ 0 then 0 else limit.toNat) s.data
        ≠ .error .nonTermination
    unfold pySplitRow
    rcases hp : reParse .re2M p.data with e | ⟨re, ng⟩
    · simp [hp]
    · simp only [hp]
      rcases hf : finditer .re2M re ng s.data with _ | ms
      · have hs := finditer_isSome .re2M re ng s.data
        rw [hf] at hs
        simp at hs
      · simp [hf]

/-- Witness for C8: the empty pattern matches the empty string at
position 0 of `"ab"` and the scan still advances; splitting on the
empty pattern does not hang. -/
theorem claim_C8_witness :
    searchFrom .re2M .eps 0 "ab".data 0 = some ⟨0, 0, []⟩ ∧
      (0 : Nat) < nextScan ⟨0, 0, []⟩ ∧
      (split "" (-1)).run "ab" ≠ .error .nonTermination :=
  ⟨by decide,
    claim_C8_split_scan_advances.1 .re2M .eps 0 "ab".data 0 ⟨0, 0, []⟩ (by decide),
    claim_C8_split_scan_advances.2 "" (-1) "ab"⟩

/-- Claim C9 (confirmed): in all six public operations, the code inside
the `try` block only builds a closure (`functools.partial` or a plain
lambda) and a UDF wrapper and never invokes the re2 engine on the
pattern, so the `except` fallback branch is unreachable and the
returned column always wraps the re2-based row function. -/
theorem claim_C9_try_never_falls_back :
    (∀ (p : String) (limit : Int),
        (split p limit).engine = .re2Engine ∧
          (split p limit).run =
            fun text => pySplitRow .re2M p.data (if limit ≤ 0 then 0 else limit.toNat)
              text.data) ∧
      (∀ (p r : String),
        (regexp_replace p r).engine = .re2Engine ∧
          (regexp_replace p r).run = fun text => pySubRow .re2M p.data r.data text.data) ∧
      (∀ (p : String) (idx : Int),
        (regexp_extract p idx).engine = .re2Engine ∧
          (regexp_extract p idx).run =
            fun text => pyExtractRow .re2M p.data idx text.data) ∧
      (∀ (p : String),
        (rlike p).engine = .re2Engine ∧
          (rlike p).run =
            fun text => (pySearch .re2M p.data text.data).map fun o => .vbool o.isSome) ∧
      (∀ (l : String),
        (startswith l).engine = .re2Engine ∧
          (startswith l).run = fun text => pyStartsRow .re2M l.data text.data) ∧
      (∀ (l : String),
        (endswith l).engine = .re2Engine ∧
          (endswith l).run = fun text => pyEndsRow .re2M l.data text.data) :=
  ⟨fun _ _ => ⟨rfl, rfl⟩, fun _ _ => ⟨rfl, rfl⟩, fun _ _ => ⟨rfl, rfl⟩,
    fun _ => ⟨rfl, rfl⟩, fun _ => ⟨rfl, rfl⟩, fun _ => ⟨rfl, rfl⟩⟩

/-- Claim C10, counterexample: obtaining the implementations is not free
of hidden global mutation — importing the module overwrites
`pyspark.sql.functions.split`. -/
theorem claim_C10_counterexample :
    (importModule initialHostEnv).F_split ≠ initialHostEnv.F_split := by decide

/-- Claim C10 (amended): importing `regex_utils` monkey-patches the host
library as a process-wide side effect, overwriting all six standard
names (`F.split`, `F.regexp_replace`, `F.regexp_extract`,
`Column.rlike`, `Column.startswith`, `Column.endswith`) with the
module's implementations while leaving unrelated attributes alone; the
implementations are not made available via explicit registration
only. -/
theorem claim_C10_import_monkey_patches :
    importModule initialHostEnv =
      { F_split := .regexUtilsShim, F_regexp_replace := .regexUtilsShim,
        F_regexp_extract := .regexUtilsShim, Column_rlike := .regexUtilsShim,
        Column_startswith := .regexUtilsShim, Column_endswith := .regexUtilsShim,
        F_upper := .nativeJvm } := rfl

end RegexUtils
